import Mathlib

set_option maxHeartbeats 1000000

/-!
Shallow embedding of the daily horseracing picks pipeline: the odds
normalizer, probability model and selection engine of select-top3.js, the
promise pool mapPool shared by the scraper and the analyzer, the date
handling and winner matching of scrape-results.js. JavaScript numbers are
modelled as exact rationals; binary floating point rounding is outside the
model (the decimal literals 1.10, 1.05, 0.95, 0.99 are taken at their
exact decimal value).
-/

unseal Rat.mul Rat.inv Rat.add Rat.sub Rat.ofScientific

/-- Whitespace characters matched by the JavaScript regex class and trim. -/
def jsIsSpace (c : Char) : Bool :=
  c = ' ' || c = '\t' || c = '\n' || c = '\r' || c = '\x0b' || c = '\x0c'

/-- JavaScript String.prototype.trim on the character list model. -/
def jsTrim (s : String) : String :=
  String.mk (((s.data.dropWhile jsIsSpace).reverse.dropWhile jsIsSpace).reverse)

/-- JavaScript truthiness of a possibly absent string: absent and empty are falsy. -/
def jsTruthy (o : Option String) : Bool :=
  match o with
  | none => false
  | some s => s ≠ ""

/-- JavaScript a or-else b on possibly absent strings: b when a is falsy. -/
def jsOr (a b : Option String) : Option String :=
  if jsTruthy a then a else b

/-- Numeric value of a digit string, as parseFloat reads an integer part. -/
def natOfDigits (l : List Char) : ℕ :=
  l.foldl (fun acc c => 10 * acc + (c.toNat - 48)) 0

/-- Value of a decimal literal with integer part ip and fractional digits fp. -/
def decValue (ip fp : List Char) : ℚ :=
  (natOfDigits ip : ℚ) + (natOfDigits fp : ℚ) / 10 ^ fp.length

/-- Anchored match of the pure decimal pattern digits optionally dot digits. -/
def parsePure (l : List Char) : Option ℚ :=
  let ip := l.takeWhile Char.isDigit
  let r := l.dropWhile Char.isDigit
  if ip = [] then none
  else
    match r with
    | [] => some (decValue ip [])
    | c :: rr =>
      if c = '.' then
        let fp := rr.takeWhile Char.isDigit
        let r2 := rr.dropWhile Char.isDigit
        if fp = [] ∨ r2 ≠ [] then none else some (decValue ip fp)
      else none

/-- Anchored match of digits slash digits with optional spacing; yields the
fractional odds value a over b plus one only when the denominator is
positive, mirroring the guarded return in toDec. -/
def fracFull (l : List Char) : Option ℚ :=
  let a := l.takeWhile Char.isDigit
  let r1 := (l.dropWhile Char.isDigit).dropWhile jsIsSpace
  if a = [] then none
  else
    match r1 with
    | c :: r2 =>
      if c = '/' then
        let r3 := r2.dropWhile jsIsSpace
        let b := r3.takeWhile Char.isDigit
        let r4 := r3.dropWhile Char.isDigit
        if b = [] ∨ r4 ≠ [] then none
        else if 0 < natOfDigits b then
          some ((natOfDigits a : ℚ) / (natOfDigits b : ℚ) + 1)
        else none
      else none
    | [] => none

/-- Greedy unanchored match starting at a digit: an integer part, an optional
fractional part, and an optional slash denominator; mirrors the last
capture based branch of toDec including the falsy test on the captured
denominator string. -/
def numAt (l : List Char) : ℚ :=
  let ip := l.takeWhile Char.isDigit
  let r := l.dropWhile Char.isDigit
  let fp : List Char :=
    match r with
    | c :: rr => if c = '.' ∧ rr.takeWhile Char.isDigit ≠ [] then rr.takeWhile Char.isDigit else []
    | [] => []
  let r2 : List Char :=
    match r with
    | c :: rr => if c = '.' ∧ rr.takeWhile Char.isDigit ≠ [] then rr.dropWhile Char.isDigit else r
    | [] => r
  let aval := decValue ip fp
  let r3 := r2.dropWhile jsIsSpace
  match r3 with
  | c :: r4 =>
    if c = '/' then
      let b := (r4.dropWhile jsIsSpace).takeWhile Char.isDigit
      if b = [] then aval
      else if natOfDigits b ≠ 0 then aval / (natOfDigits b : ℚ) + 1
      else aval
    else aval
  | [] => aval

/-- Leftmost search for the embedded number pattern of toDec. -/
def numSearch : List Char → Option ℚ
  | [] => none
  | c :: rest => if c.isDigit then some (numAt (c :: rest)) else numSearch rest

/-- The three ordered parsing attempts of toDec on a trimmed string. -/
def toDecStr (s : String) : Option ℚ :=
  let l := (jsTrim s).data
  match parsePure l with
  | some q => some q
  | none =>
    match fracFull l with
    | some q => some q
    | none => numSearch l

/-- toDec of select-top3.js on a possibly absent odds string: falsy input is
null, otherwise the trimmed string is tried against the pure decimal
pattern, the anchored fraction pattern, then the embedded number search. -/
def toDec (odds : Option String) : Option ℚ :=
  match odds with
  | none => none
  | some s => if s = "" then none else toDecStr s

/-- impliedProb of select-top3.js: one over the decimal odds when they
exist and exceed one, else zero. -/
def impliedProb (odds : Option String) : ℚ :=
  match toDec odds with
  | some d => if 1 < d then 1 / d else 0
  | none => 0

/-- Boolean prefix test on character lists. -/
def hasPrefixCh : List Char → List Char → Bool
  | [], _ => true
  | _ :: _, [] => false
  | a :: as, b :: bs => a = b && hasPrefixCh as bs

/-- Boolean substring test on character lists, as String.prototype.includes. -/
def hasSubCh (needle : List Char) : List Char → Bool
  | [] => hasPrefixCh needle []
  | c :: rest => hasPrefixCh needle (c :: rest) || hasSubCh needle rest

/-- Character wise lower casing, the model of toLowerCase. -/
def lowerStr (s : String) : String :=
  String.mk (s.data.map Char.toLower)

/-- The guarded form test of adjustedProb: the form string is truthy and
contains the given character. -/
def formHas (o : Option String) (c : Char) : Bool :=
  jsTruthy o && ((o.getD "").data.contains c)

/-- An analysis pick record as read by select-top3.js: name plus free text
fields, every odds bearing field possibly absent. -/
structure Pick where
  name : String
  jockey : Option String := none
  trainer : Option String := none
  form : Option String := none
  odds_note : Option String := none
  rationale : Option String := none
  confidence : Option String := none
  exchange : Option String := none
  exc_dec : Option String := none
  odds : Option String := none
  deriving Repr, DecidableEq

/-- adjustedProb of select-top3.js: implied probability of the first truthy
odds field, scaled for confidence and form signals, clamped at 0.99. -/
def adjustedProb (pick : Pick) : ℚ :=
  let p0 := impliedProb (jsOr pick.exchange (jsOr pick.exc_dec (jsOr pick.odds pick.odds_note)))
  let conf := lowerStr ((jsOr pick.confidence (some "")).getD "")
  let p1 :=
    if hasSubCh "high".data conf.data then p0 * 1.10
    else if hasSubCh "medium".data conf.data then p0 * 1.05
    else p0
  let p2 := if formHas pick.form '1' then p1 * 1.05 else p1
  let p3 := if formHas pick.form '0' then p2 * 0.95 else p2
  min p3 0.99

/-- expectedValue of select-top3.js: minus one when odds or probability are
falsy, else the probability weighted net return. -/
def expectedValue (prob : ℚ) (oddsDec : Option ℚ) : ℚ :=
  match oddsDec with
  | none => -1
  | some d => if d = 0 ∨ prob = 0 then -1 else prob * (d - 1) - (1 - prob)

/-- A pick extended with the derived scoring fields, the spread in the main
race loop of select-top3.js. -/
structure ScoredPick where
  pick : Pick
  oddsDec : Option ℚ
  probability : ℚ
  expected_value : ℚ
  deriving Repr, DecidableEq

/-- The per pick scoring step of the main race loop. -/
def scorePick (p : Pick) : ScoredPick :=
  let dec := toDec (jsOr p.exchange (jsOr p.exc_dec (jsOr p.odds p.odds_note)))
  let prob := adjustedProb p
  { pick := p, oddsDec := dec, probability := prob, expected_value := expectedValue prob dec }

/-- toDec applied to an already numeric odds value, as calcPotentialProfit
does: a JavaScript number below 1e21 prints as a plain decimal numeral and
reparses to itself, zero and null are falsy and give null. -/
def toDecNum (o : Option ℚ) : Option ℚ :=
  match o with
  | none => none
  | some q => if q = 0 then none else some q

/-- calcPotentialProfit of select-top3.js: scan the picks in order and
return the first decimal odds minus three that is positive, else minus
one; null odds coerce to zero in the subtraction. -/
def calcPotentialProfit : List ScoredPick → ℚ
  | [] => -1
  | p :: rest =>
    let dec := (toDecNum p.oddsDec).getD 0
    if 0 < dec - 3 then dec - 3 else calcPotentialProfit rest

/-- Stable descending insertion by adjusted probability: an earlier pick
stays before a later one whenever its probability is at least as large,
the order produced by the stable comparator sort in the main loop. -/
def sortInsert (p : ScoredPick) : List ScoredPick → List ScoredPick
  | [] => [p]
  | q :: rest =>
    if q.probability ≤ p.probability then p :: q :: rest else q :: sortInsert p rest

/-- Stable sort of the profitable picks, descending by probability. -/
def sortByProbDesc (l : List ScoredPick) : List ScoredPick :=
  l.foldr sortInsert []

/-- Rounding of toFixed: the integer numerator closest to the scaled value,
ties resolved toward the larger integer, as the ECMAScript toFixed rule. -/
def jsRoundAt (k : ℕ) (q : ℚ) : ℚ :=
  (Int.floor (q * 10 ^ k + 1 / 2) : ℚ) / 10 ^ k

/-- Decimal rendering of a natural number padded with leading zeros. -/
def padZeros (k : ℕ) (m : ℕ) : String :=
  let s := toString m
  String.mk (List.replicate (k - s.length) '0') ++ s

/-- Fixed point rendering of a nonnegative scaled integer with k decimals. -/
def fixedStrNat (k : ℕ) (n : ℕ) : String :=
  if k = 0 then toString n
  else toString (n / 10 ^ k) ++ "." ++ padZeros k (n % 10 ^ k)

/-- toFixed of a rational value at k decimals, producing a string. -/
def jsToFixed (k : ℕ) (q : ℚ) : String :=
  let n : ℤ := Int.floor (q * 10 ^ k + 1 / 2)
  if n < 0 then "-" ++ fixedStrNat k (Int.toNat (-n)) else fixedStrNat k (Int.toNat n)

/-- One entry of best_3_picks as pushed by select-top3.js: probability is the
adjusted probability times one hundred rounded at one decimal, expected
value rounded at three decimals. -/
structure EmittedPick where
  name : String
  odds : Option ℚ
  probability : ℚ
  expected_value : ℚ
  rationale : Option String
  trainer : Option String
  jockey : Option String
  deriving Repr, DecidableEq

/-- One race record pushed on refined.races: combo_profit_check is the
toFixed rendering of the potential profit, a string. -/
structure EmittedRace where
  course : String
  time : String
  best_3_picks : List EmittedPick
  combo_profit_check : String
  deriving Repr, DecidableEq

/-- The projection of a scored pick into the emitted record. -/
def emitPick (p : ScoredPick) : EmittedPick :=
  { name := p.pick.name
    odds := p.oddsDec
    probability := jsRoundAt 1 (p.probability * 100)
    expected_value := jsRoundAt 3 p.expected_value
    rationale := p.pick.rationale
    trainer := p.pick.trainer
    jockey := p.pick.jockey }

/-- An input race of the picks file as read by the main loop. -/
structure Race where
  course : Option String := none
  time : Option String := none
  shortlist : List Pick := []
  deriving Repr, DecidableEq

/-- The optional chaining and fallback on course and time: trim when the
field exists, empty string otherwise or when the trim is falsy. -/
def jsStrField (o : Option String) : String :=
  (o.map jsTrim).getD ""

/-- The picks of a race scored and filtered to positive expected value. -/
def profitableList (race : Race) : List ScoredPick :=
  (race.shortlist.map scorePick).filter fun p => decide (0 < p.expected_value)

/-- The profitable picks sorted descending by probability and capped at 3,
the shortlist candidate of the main loop. -/
def cappedList (race : Race) : List ScoredPick :=
  (sortByProbDesc (profitableList race)).take 3

/-- The main race loop of select-top3.js for one race: drop the race when
fewer than three picks are profitable, otherwise take the top three by
probability, and drop the race when the combo profit check is not
positive; only surviving races produce an output record. -/
def processRace (race : Race) : Option EmittedRace :=
  if (profitableList race).length < 3 then none
  else if calcPotentialProfit (cappedList race) ≤ 0 then none
  else some
    { course := jsStrField race.course
      time := jsStrField race.time
      best_3_picks := (cappedList race).map emitPick
      combo_profit_check := jsToFixed 2 (calcPotentialProfit (cappedList race)) }

/-- The emission condition exactly as claim C1 words it: the capped list is
nonempty, at least one pick, and the combo profit check over it is
positive. -/
def claimGateC1 (race : Race) : Prop :=
  cappedList race ≠ [] ∧ 0 < calcPotentialProfit (cappedList race)

/-- The odds source priority described by claim C10: exchange, then exc_dec,
then odds, then odds_note, first non empty wins; the joined find gives
null when no field is truthy. -/
def oddsSourceOf (p : Pick) : Option String :=
  (([p.exchange, p.exc_dec, p.odds, p.odds_note].find? jsTruthy).getD none)

/-- The confidence and form adjustment pipeline of adjustedProb applied to
a base probability supplied as an argument. -/
def adjustFrom (pick : Pick) (p0 : ℚ) : ℚ :=
  let conf := lowerStr ((jsOr pick.confidence (some "")).getD "")
  let p1 :=
    if hasSubCh "high".data conf.data then p0 * 1.10
    else if hasSubCh "medium".data conf.data then p0 * 1.05
    else p0
  let p2 := if formHas pick.form '1' then p1 * 1.05 else p1
  let p3 := if formHas pick.form '0' then p2 * 0.95 else p2
  min p3 0.99

/-- The state of the promise pool mapPool: the next index the launch loop
will hand out, the set of indices with a worker in flight, the
preallocated output slots, and whether resolve has been called. -/
structure PoolState (β : Type) where
  nextIdx : ℕ
  inFlight : Finset ℕ
  out : ℕ → Option β
  resolved : Bool

/-- The launch loop of mapPool: while fewer than limit workers run and
items remain, start the worker for the next index; fuel bounds the
recursion and equals the remaining items at every call site. -/
def launchAux (N limit : ℕ) {β : Type} : ℕ → PoolState β → PoolState β
  | 0, s => s
  | fuel + 1, s =>
    if s.inFlight.card < limit ∧ s.nextIdx < N then
      launchAux N limit fuel
        { s with nextIdx := s.nextIdx + 1, inFlight := insert s.nextIdx s.inFlight }
    else s

/-- launch with exactly the fuel the loop can consume. -/
def launch (N limit : ℕ) {β : Type} (s : PoolState β) : PoolState β :=
  launchAux N limit (N - s.nextIdx) s

/-- Writing a worker result into its own slot of the output array. -/
def applyOut {α β : Type} (items : List α) (f : α → β) (out : ℕ → Option β) (idx : ℕ) :
    ℕ → Option β :=
  fun j => if j = idx then (items.get? idx).map f else out j

/-- Completion of the worker at idx: store its value, leave the in flight
set, then either resolve when everything is finished or run launch again,
exactly the finally callback of mapPool. -/
def complete {α β : Type} (items : List α) (limit : ℕ) (f : α → β)
    (s : PoolState β) (idx : ℕ) : PoolState β :=
  let s1 : PoolState β :=
    { s with inFlight := s.inFlight.erase idx, out := applyOut items f s.out idx }
  if s1.inFlight = ∅ ∧ items.length ≤ s1.nextIdx then { s1 with resolved := true }
  else launch items.length limit s1

/-- The pool state right after the executor body ran its first launch. -/
def poolInit {α β : Type} (items : List α) (limit : ℕ) (_f : α → β) : PoolState β :=
  launch items.length limit
    { nextIdx := 0, inFlight := ∅, out := fun _ => none, resolved := false }

/-- One scheduler step: some in flight worker completes; the completion
order is arbitrary. -/
def PoolStep {α β : Type} (items : List α) (limit : ℕ) (f : α → β)
    (s t : PoolState β) : Prop :=
  ∃ idx, idx ∈ s.inFlight ∧ t = complete items limit f s idx

/-- The states the pool can be in, over every completion order. -/
def PoolReachable {α β : Type} (items : List α) (limit : ℕ) (f : α → β)
    (s : PoolState β) : Prop :=
  Relation.ReflTransGen (PoolStep items limit f) (poolInit items limit f) s

/-- The inductive invariant of the pool: indices are handed out in order,
a slot is filled exactly when its worker was launched and has completed,
resolution happens only with everything launched and drained, and after
every launch either the limit is saturated or all items are handed out;
with items present and a positive limit an unresolved pool always has a
worker in flight. -/
structure PoolInv {α β : Type} (items : List α) (limit : ℕ) (f : α → β)
    (s : PoolState β) : Prop where
  idxLe : s.nextIdx ≤ items.length
  flightLt : ∀ j ∈ s.inFlight, j < s.nextIdx
  outEq : ∀ j, s.out j =
    if j < s.nextIdx ∧ j ∉ s.inFlight then (items.get? j).map f else none
  resolvedDrained : s.resolved = true → s.inFlight = ∅ ∧ s.nextIdx = items.length
  saturated : s.resolved = false → limit ≤ s.inFlight.card ∨ s.nextIdx = items.length
  liveFlight : s.resolved = false → items ≠ [] → 0 < limit → s.inFlight.Nonempty

/-- The termination measure of the pool: two per item not yet handed out,
one per worker in flight. -/
def poolMeasure {β : Type} (N : ℕ) (s : PoolState β) : ℕ :=
  2 * (N - s.nextIdx) + s.inFlight.card

/-- Lower casing then collapsing whitespace runs then trimming, the norm
function used for winner matching in scrape-results.js. -/
def wsToSpace (c : Char) : Char :=
  if jsIsSpace c then ' ' else c

/-- Collapse consecutive spaces to a single space. -/
def dedupSp : List Char → List Char
  | [] => []
  | [c] => [c]
  | c :: d :: rest =>
    if c = ' ' ∧ d = ' ' then dedupSp (d :: rest) else c :: dedupSp (d :: rest)

/-- norm of scrape-results.js: lower case, collapse whitespace runs to one
space, trim the ends. -/
def normName (s : String) : String :=
  let collapsed := dedupSp ((s.data.map Char.toLower).map wsToSpace)
  String.mk ((collapsed.dropWhile (· = ' ')).reverse.dropWhile (· = ' ')).reverse

/-- The winner record extracted from a results page. -/
structure Winner where
  name : String
  sp : Option String := none
  jockey : Option String := none
  trainer : Option String := none
  deriving Repr, DecidableEq

/-- The hit computation of scrape-results.js: false without a winner, else
true exactly when some shortlist entry has the same normalised name. -/
def computeHit (winner : Option Winner) (shortlist : List Pick) : Bool :=
  match winner with
  | none => false
  | some w => shortlist.any fun p => normName p.name = normName w.name

/-- Value of a single decimal digit character. -/
def digitVal (c : Char) : ℕ := c.toNat - 48

/-- Anchored match of the ISO pattern four digits dash two digits dash two
digits, yielding year, month and day numbers. -/
def matchISO : List Char → Option (ℕ × ℕ × ℕ)
  | [y1, y2, y3, y4, s1, m1, m2, s2, d1, d2] =>
    if y1.isDigit ∧ y2.isDigit ∧ y3.isDigit ∧ y4.isDigit ∧ s1 = '-' ∧
       m1.isDigit ∧ m2.isDigit ∧ s2 = '-' ∧ d1.isDigit ∧ d2.isDigit then
      some (1000 * digitVal y1 + 100 * digitVal y2 + 10 * digitVal y3 + digitVal y4,
            10 * digitVal m1 + digitVal m2, 10 * digitVal d1 + digitVal d2)
    else none
  | _ => none

/-- Anchored match of two digits slash two digits slash four digits,
yielding day, month and year numbers. -/
def matchDMY : List Char → Option (ℕ × ℕ × ℕ)
  | [d1, d2, s1, m1, m2, s2, y1, y2, y3, y4] =>
    if d1.isDigit ∧ d2.isDigit ∧ s1 = '/' ∧ m1.isDigit ∧ m2.isDigit ∧ s2 = '/' ∧
       y1.isDigit ∧ y2.isDigit ∧ y3.isDigit ∧ y4.isDigit then
      some (10 * digitVal d1 + digitVal d2, 10 * digitVal m1 + digitVal m2,
            1000 * digitVal y1 + 100 * digitVal y2 + 10 * digitVal y3 + digitVal y4)
    else none
  | _ => none

/-- Gregorian leap year rule. -/
def isLeap (y : ℤ) : Bool :=
  (Int.fmod y 4 = 0 && Int.fmod y 100 ≠ 0) || Int.fmod y 400 = 0

/-- Days in a month, month counted from one. -/
def daysInMonth (y : ℤ) (m : ℕ) : ℕ :=
  if m = 2 then (if isLeap y then 29 else 28)
  else if m = 4 ∨ m = 6 ∨ m = 9 ∨ m = 11 then 30 else 31

/-- Day of month normalisation by borrow and carry, the rollover the Date
constructor applies to out of range day numbers; the fuel is ample for the
two digit day numbers the formats allow. -/
def normDayAux : ℕ → ℤ → ℕ → ℤ → ℤ × ℕ × ℤ
  | 0, y, m, d => (y, m, d)
  | fuel + 1, y, m, d =>
    if d < 1 then
      let y2 := if m = 1 then y - 1 else y
      let m2 := if m = 1 then 12 else m - 1
      normDayAux fuel y2 m2 (d + daysInMonth y2 m2)
    else if (daysInMonth y m : ℤ) < d then
      let y2 := if m = 12 then y + 1 else y
      let m2 := if m = 12 then 1 else m + 1
      normDayAux fuel y2 m2 (d - daysInMonth y m)
    else (y, m, d)

/-- The local calendar semantics of new Date with numeric year, zero based
month and day arguments: years zero to ninety nine shift to the twentieth
century, months roll over into years, days roll over through month
lengths. The resulting date is always a real calendar instant, so the
finiteness test of parseDateFlexible never fires in this model. -/
def jsDateNorm (y0 : ℕ) (m0 : ℤ) (d : ℕ) : ℤ × ℕ × ℤ :=
  let y : ℤ := if y0 ≤ 99 then (y0 : ℤ) + 1900 else (y0 : ℤ)
  let mTotal : ℤ := y * 12 + m0
  let y1 : ℤ := Int.fdiv mTotal 12
  let m1 : ℕ := (Int.fmod mTotal 12).toNat + 1
  normDayAux 120 y1 m1 (d : ℤ)

/-- The template rendering of toYMD: year, dash, two digit month, dash,
two digit day. -/
def renderYMD (y : ℤ) (m : ℕ) (d : ℤ) : String :=
  toString y ++ "-" ++ padZeros 2 m ++ "-" ++ padZeros 2 (Int.toNat d)

/-- parseDateFlexible of scrape-results.js: falsy input is null, then the
trimmed string is matched against ISO and day month year patterns; a
match is normalised through the Date constructor and rendered back. -/
def parseDateFlexible (s0 : String) : Option String :=
  if s0 = "" then none
  else
    let l := (jsTrim s0).data
    match matchISO l with
    | some (y, m, d) =>
      let r := jsDateNorm y ((m : ℤ) - 1) d
      some (renderYMD r.1 r.2.1 r.2.2)
    | none =>
      match matchDMY l with
      | some (dd, mm, yyyy) =>
        let r := jsDateNorm yyyy ((mm : ℤ) - 1) dd
        some (renderYMD r.1 r.2.1 r.2.2)
      | none => none

/-- Civil date within a four hundred year era from the day of era. -/
def civilOfDoe (doe : ℕ) : ℕ × ℕ × ℕ :=
  let yoe := (doe - doe / 1460 + doe / 36524 - doe / 146096) / 365
  let doy := doe - (365 * yoe + yoe / 4 - yoe / 100)
  let mp := (5 * doy + 2) / 153
  let d := doy - (153 * mp + 2) / 5 + 1
  let m := if mp < 10 then mp + 3 else mp - 9
  (yoe, m, d)

/-- Civil date of a day index counted from 1970-01-01, the rendering the
local time accessors of Date perform in this fixed offset model. -/
def civilFromDays (z0 : ℤ) : ℤ × ℕ × ℕ :=
  let z := z0 + 719468
  let era := Int.fdiv z 146097
  let doe := (Int.fmod z 146097).toNat
  let c := civilOfDoe doe
  let yoe := c.1
  let m := c.2.1
  let d := c.2.2
  let y := (yoe : ℤ) + era * 400
  (if m ≤ 2 then y + 1 else y, m, d)

/-- toYMD of a Date holding the given epoch milliseconds. -/
def toYMDofMs (ms : ℕ) : String :=
  let c := civilFromDays ((ms / 86400000 : ℕ) : ℤ)
  renderYMD c.1 c.2.1 (c.2.2 : ℤ)

/-- startsWith of JavaScript strings. -/
def strStarts (s pre : String) : Bool :=
  hasPrefixCh pre.data s.data

/-- split on a separator character, as String.prototype.split with a one
character separator. -/
def splitOnCh (sep : Char) : List Char → List (List Char)
  | [] => [[]]
  | c :: rest =>
    let r := splitOnCh sep rest
    if c = sep then [] :: r
    else
      match r with
      | h :: t => (c :: h) :: t
      | [] => [[c]]

/-- The error message thrown for an unparseable explicit date. -/
def dateErrMsg (val : String) : String :=
  "Invalid --date value: \"" ++ val ++ "\". Use YYYY-MM-DD or DD/MM/YYYY."

/-- getTargetDateFromArgs of scrape-results.js over the argument list and
the process start time in epoch milliseconds: the today and yesterday
flags, the equals and space forms of the date flag with a thrown error,
modelled as the error branch, when the supplied value parses to null, and
the default of twenty four hours before now. -/
def getTargetDateFromArgs (nowMs : ℕ) (args : List String) : Except String String :=
  if args.contains "--today" then Except.ok (toYMDofMs nowMs)
  else if args.contains "--yesterday" then Except.ok (toYMDofMs (nowMs - 86400000))
  else
    match args.find? (fun a => strStarts a "--date=") with
    | some eqArg =>
      let val := String.mk ((splitOnCh '=' eqArg.data).getD 1 [])
      match parseDateFlexible val with
      | some parsed => Except.ok parsed
      | none => Except.error (dateErrMsg val)
    | none =>
      match args.findIdx? (fun a => a == "--date") with
      | some i =>
        match args.get? (i + 1) with
        | some v =>
          if v ≠ "" then
            match parseDateFlexible v with
            | some parsed => Except.ok parsed
            | none => Except.error (dateErrMsg v)
          else Except.ok (toYMDofMs (nowMs - 86400000))
        | none => Except.ok (toYMDofMs (nowMs - 86400000))
      | none => Except.ok (toYMDofMs (nowMs - 86400000))

/-- A race with a single profitable pick at decimal odds five, used to probe
the selection gate. -/
def raceSolo : Race :=
  { shortlist := [{ name := "Solo", odds := some "4/1",
                    confidence := some "high", form := some "1" }] }

/-- A race with three profitable picks at decimal odds five, six and seven,
which the selection engine emits. -/
def raceTriple : Race :=
  { shortlist :=
      [{ name := "Alpha", odds := some "4/1", confidence := some "high", form := some "1" },
       { name := "Beta", odds := some "5/1", confidence := some "high", form := some "1" },
       { name := "Gamma", odds := some "6/1", confidence := some "high", form := some "1" }] }

/-- Previous calendar day of an epoch instant: the civil date of the day
index one before the index of the instant, the intended meaning of the
default date of scrape-results.js in this fixed offset time model. -/
def prevCalendarDayOfMs (ms : ℕ) : String :=
  let c := civilFromDays (((ms / 86400000 : ℕ) : ℤ) - 1)
  renderYMD c.1 c.2.1 (c.2.2 : ℤ)

theorem decValue_nonneg (ip fp : List Char) : 0 ≤ decValue ip fp := by
  unfold decValue
  positivity

theorem parsePure_nonneg {l : List Char} {q : ℚ} (h : parsePure l = some q) : 0 ≤ q := by
  unfold parsePure at h
  dsimp only at h
  split at h
  · exact Option.noConfusion h
  · split at h
    · obtain rfl : decValue _ [] = q := Option.some.inj h
      exact decValue_nonneg _ _
    · split at h
      · split at h
        · exact Option.noConfusion h
        · obtain rfl : decValue _ _ = q := Option.some.inj h
          exact decValue_nonneg _ _
      · exact Option.noConfusion h

theorem fracFull_nonneg {l : List Char} {q : ℚ} (h : fracFull l = some q) : 0 ≤ q := by
  unfold fracFull at h
  dsimp only at h
  split at h
  · exact Option.noConfusion h
  · split at h
    · split at h
      · split at h
        · exact Option.noConfusion h
        · split at h
          · obtain rfl := Option.some.inj h
            positivity
          · exact Option.noConfusion h
      · exact Option.noConfusion h
    · exact Option.noConfusion h

theorem numAt_nonneg (l : List Char) : 0 ≤ numAt l := by
  unfold numAt
  dsimp only
  split
  · split
    · have := decValue_nonneg (l.takeWhile Char.isDigit)
      split
      · apply this
      · split
        · exact add_nonneg (div_nonneg (decValue_nonneg _ _) (by positivity)) zero_le_one
        · apply this
    · apply decValue_nonneg
  · apply decValue_nonneg

theorem numSearch_nonneg : ∀ {l : List Char} {q : ℚ}, numSearch l = some q → 0 ≤ q := by
  intro l
  induction l with
  | nil => intro q h; exact Option.noConfusion h
  | cons c rest ih =>
    intro q h
    unfold numSearch at h
    split at h
    · obtain rfl := Option.some.inj h
      exact numAt_nonneg _
    · exact ih h

theorem toDec_nonneg {o : Option String} {q : ℚ} (h : toDec o = some q) : 0 ≤ q := by
  unfold toDec at h
  split at h
  · exact Option.noConfusion h
  · split at h
    · exact Option.noConfusion h
    · unfold toDecStr at h
      dsimp only at h
      split at h
      · rename_i q2 heq
        obtain rfl := Option.some.inj h
        exact parsePure_nonneg heq
      · split at h
        · rename_i q2 heq
          obtain rfl := Option.some.inj h
          exact fracFull_nonneg heq
        · exact numSearch_nonneg h

theorem impliedProb_nonneg (o : Option String) : 0 ≤ impliedProb o := by
  unfold impliedProb
  split
  · split
    · rename_i h1
      exact le_of_lt (div_pos one_pos (lt_trans one_pos h1))
    · exact le_refl 0
  · exact le_refl 0

theorem adjustFrom_nonneg (pick : Pick) (p0 : ℚ) (h : 0 ≤ p0) : 0 ≤ adjustFrom pick p0 := by
  unfold adjustFrom
  dsimp only
  apply le_min _ (by norm_num)
  split_ifs <;> nlinarith

theorem adjustFrom_le (pick : Pick) (p0 : ℚ) : adjustFrom pick p0 ≤ 0.99 := by
  unfold adjustFrom
  dsimp only
  exact min_le_right _ _

theorem adjustedProb_eq_adjustFrom (pick : Pick) :
    adjustedProb pick =
      adjustFrom pick
        (impliedProb (jsOr pick.exchange (jsOr pick.exc_dec (jsOr pick.odds pick.odds_note)))) :=
  rfl

theorem adjustedProb_bounds (pick : Pick) :
    0 ≤ adjustedProb pick ∧ adjustedProb pick ≤ 0.99 := by
  rw [adjustedProb_eq_adjustFrom]
  exact ⟨adjustFrom_nonneg _ _ (impliedProb_nonneg _), adjustFrom_le _ _⟩

/-- C3 counterexample: the claim maps the string 3/0 to null, but toDec
falls through the guarded fraction rule into the embedded fragment search,
which parses the bare numerator and returns 3. -/
theorem c3_counterexample : toDec (some "3/0") = some 3 ∧ toDec (some "3/0") ≠ none :=
  ⟨by decide, by decide⟩

/-- C3 (amended): the odds normalizer maps 5/2 to 3.5, 3.7 to 3.7,
EXC 4.8 to 4.8, the empty string and null to null, and 3/0 to 3: the
anchored fraction rule rejects the non positive denominator, but the
embedded fragment fallback then returns the bare numerator. -/
theorem c3_odds_normalizer_examples :
    toDec (some "5/2") = some 3.5 ∧ toDec (some "3.7") = some 3.7 ∧
    toDec (some "EXC 4.8") = some 4.8 ∧ toDec (some "") = none ∧
    toDec none = none ∧ toDec (some "3/0") = some 3 := by
  refine ⟨by decide, by decide, by decide, by decide, by decide, by decide⟩

/-- C4 counterexample: toDec maps the string 1 to the number 1, which is
neither null nor strictly greater than 1.0, and this value reaches the
oddsDec field of a scored pick. -/
theorem c4_counterexample :
    toDec (some "1") = some 1 ∧ ¬ (1 : ℚ) > 1 ∧
    (scorePick { name := "X", odds := some "1" }).oddsDec = some 1 :=
  ⟨by decide, by decide, by decide⟩

/-- C4 (amended): for every input the odds normalizer returns either null
or a nonnegative number, and hence the oddsDec field of every scored pick
is either null or nonnegative; values of one and below do occur, so the
bound cannot be strengthened to greater than one. -/
theorem c4_oddsDec_nonneg :
    (∀ (o : Option String) (q : ℚ), toDec o = some q → 0 ≤ q) ∧
    (∀ (p : Pick) (q : ℚ), (scorePick p).oddsDec = some q → 0 ≤ q) := by
  refine ⟨fun o q h => toDec_nonneg h, fun p q h => ?_⟩
  unfold scorePick at h
  dsimp only at h
  exact toDec_nonneg h

/-- C4 witness: the amended bound evaluated at the fractional string 5/2. -/
theorem c4_witness : toDec (some "5/2") = some 3.5 ∧ (0 : ℚ) ≤ 3.5 :=
  ⟨by decide, c4_oddsDec_nonneg.1 (some "5/2") 3.5 (by decide)⟩

/-- C7: for every pick, whatever its odds strings, confidence descriptor
and form string, the adjusted probability lies in the closed interval
from 0 to 0.99. -/
theorem c7_probability_clamped (pick : Pick) :
    0 ≤ adjustedProb pick ∧ adjustedProb pick ≤ 0.99 :=
  adjustedProb_bounds pick

theorem toDec_of_falsy {o : Option String} (h : jsTruthy o = false) : toDec o = none := by
  cases o with
  | none => rfl
  | some s =>
    unfold jsTruthy at h
    simp only [decide_eq_false_iff_not, ne_eq, not_not] at h
    simp [toDec, h]

theorem toDec_chain_eq_source (p : Pick) :
    toDec (jsOr p.exchange (jsOr p.exc_dec (jsOr p.odds p.odds_note))) =
      toDec (oddsSourceOf p) := by
  by_cases h1 : jsTruthy p.exchange <;> by_cases h2 : jsTruthy p.exc_dec <;>
    by_cases h3 : jsTruthy p.odds <;> by_cases h4 : jsTruthy p.odds_note <;>
    simp [oddsSourceOf, jsOr, List.find?, h1, h2, h3, h4]
  exact toDec_of_falsy (by simpa using h4)

/-- C10: the probability and the decimal odds of every scored pick derive
from the same odds source, selected by the fixed priority exchange, then
exc_dec, then odds, then odds_note, first non empty field winning. -/
theorem c10_same_odds_source (p : Pick) :
    (scorePick p).oddsDec = toDec (oddsSourceOf p) ∧
    (scorePick p).probability = adjustFrom p (impliedProb (oddsSourceOf p)) := by
  unfold scorePick
  dsimp only
  refine ⟨toDec_chain_eq_source p, ?_⟩
  rw [adjustedProb_eq_adjustFrom]
  have himp : impliedProb (jsOr p.exchange (jsOr p.exc_dec (jsOr p.odds p.odds_note))) =
      impliedProb (oddsSourceOf p) := by
    unfold impliedProb
    rw [toDec_chain_eq_source]
  rw [himp]

theorem mem_sortInsert {a p : ScoredPick} {l : List ScoredPick}
    (h : a ∈ sortInsert p l) : a = p ∨ a ∈ l := by
  induction l with
  | nil => simp [sortInsert] at h; simp [h]
  | cons q rest ih =>
    unfold sortInsert at h
    split at h
    · rcases List.mem_cons.mp h with h | h
      · exact Or.inl h
      · exact Or.inr h
    · rcases List.mem_cons.mp h with h | h
      · exact Or.inr (List.mem_cons.mpr (Or.inl h))
      · rcases ih h with h | h
        · exact Or.inl h
        · exact Or.inr (List.mem_cons.mpr (Or.inr h))

theorem mem_sortByProbDesc {a : ScoredPick} {l : List ScoredPick}
    (h : a ∈ sortByProbDesc l) : a ∈ l := by
  induction l with
  | nil => simp [sortByProbDesc] at h
  | cons x xs ih =>
    unfold sortByProbDesc at h
    rcases mem_sortInsert h with h | h
    · simp [h]
    · exact List.mem_cons.mpr (Or.inr (ih h))

theorem mem_cappedList {race : Race} {p : ScoredPick} (h : p ∈ cappedList race) :
    ∃ orig ∈ race.shortlist, p = scorePick orig := by
  unfold cappedList at h
  have h1 : p ∈ sortByProbDesc (profitableList race) := List.take_subset _ _ h
  have h2 := mem_sortByProbDesc h1
  unfold profitableList at h2
  have h3 := List.mem_of_mem_filter h2
  obtain ⟨orig, ho, rfl⟩ := List.mem_map.mp h3
  exact ⟨orig, ho, rfl⟩

theorem jsRoundAt_one_bounds {x : ℚ} (h0 : 0 ≤ x) (h99 : x ≤ 99) :
    0 ≤ jsRoundAt 1 x ∧ jsRoundAt 1 x ≤ 99 := by
  unfold jsRoundAt
  constructor
  · apply div_nonneg _ (by norm_num)
    have hz : (0 : ℤ) ≤ Int.floor (x * 10 ^ 1 + 1 / 2) := by
      apply Int.floor_nonneg.mpr
      nlinarith
    exact_mod_cast hz
  · have hlt : x * 10 ^ 1 + 1 / 2 < ((991 : ℤ) : ℚ) := by push_cast; nlinarith
    have hf : Int.floor (x * 10 ^ 1 + 1 / 2) ≤ 990 := by
      have := Int.floor_lt.mpr hlt
      omega
    have hfq : ((Int.floor (x * 10 ^ 1 + 1 / 2) : ℤ) : ℚ) ≤ 990 := by exact_mod_cast hf
    rw [div_le_iff₀ (by norm_num : (0 : ℚ) < 10 ^ 1)]
    linarith

/-- C1 counterexample: a race with exactly one profitable pick whose combo
check is positive satisfies the emission condition of the claim, a
nonempty capped list with a positive combo profit, yet the engine emits
nothing because it first requires at least three profitable picks. -/
theorem c1_counterexample : claimGateC1 raceSolo ∧ processRace raceSolo = none := by
  refine ⟨⟨by decide, by decide⟩, by decide⟩

/-- C1 (amended): a SelectionResult is emitted if and only if at least
three picks are EV positive and the combo profit check over the capped
list of three is positive; a race failing either condition produces no
output record at all. -/
theorem c1_selection_gate (race : Race) :
    (processRace race).isSome = true ↔
      3 ≤ (profitableList race).length ∧ 0 < calcPotentialProfit (cappedList race) := by
  unfold processRace
  split_ifs with h1 h2
  · simp only [Option.isSome_none, Bool.false_eq_true, false_iff, not_and]
    intro h3
    omega
  · simp only [Option.isSome_none, Bool.false_eq_true, false_iff, not_and]
    intro _
    linarith
  · simp only [Option.isSome_some, true_iff]
    exact ⟨by omega, by linarith⟩

/-- C6 (amended): every emitted race carries combo_profit_check as the two
decimal string rendering of the combo profit, and every emitted pick
carries the model probability scaled to a percentage and rounded at one
decimal, hence within 0 and 99, with expected value rounded at three
decimals. -/
theorem c6_emitted_shape (race : Race) (e : EmittedRace) (h : processRace race = some e) :
    e.combo_profit_check = jsToFixed 2 (calcPotentialProfit (cappedList race)) ∧
    e.best_3_picks = (cappedList race).map emitPick ∧
    ∀ q ∈ e.best_3_picks, 0 ≤ q.probability ∧ q.probability ≤ 99 := by
  unfold processRace at h
  split_ifs at h with h1 h2
  injection h with h3
  subst h3
  refine ⟨rfl, rfl, ?_⟩
  intro q hq
  dsimp only at hq
  obtain ⟨p, hp, rfl⟩ := List.mem_map.mp hq
  obtain ⟨orig, _, rfl⟩ := mem_cappedList hp
  have hb := adjustedProb_bounds orig
  have hsp : (scorePick orig).probability = adjustedProb orig := rfl
  unfold emitPick
  dsimp only
  rw [hsp]
  exact jsRoundAt_one_bounds (by nlinarith [hb.1]) (by nlinarith [hb.2])

/-- C6 counterexample: on a concrete emitted race the combo profit check is
the string 2.00, not a number, and the stored probabilities are the model
probabilities times one hundred, far outside the unit interval of the
claim. -/
theorem c6_counterexample :
    (processRace raceTriple).map (fun e => e.combo_profit_check) = some "2.00" ∧
    (processRace raceTriple).map (fun e => e.best_3_picks.map fun q => q.probability) =
      some [23.1, 19.3, 16.5] ∧ ¬ ((23.1 : ℚ) ≤ 0.99) := by
  refine ⟨by decide, by decide, by decide⟩

/-- C6 witness: the amended shape evaluated on the concrete emitted race. -/
theorem c6_witness :
    ∃ e, processRace raceTriple = some e ∧
      (e.combo_profit_check = jsToFixed 2 (calcPotentialProfit (cappedList raceTriple)) ∧
       e.best_3_picks = (cappedList raceTriple).map emitPick ∧
       ∀ q ∈ e.best_3_picks, 0 ≤ q.probability ∧ q.probability ≤ 99) := by
  cases he : processRace raceTriple with
  | none => exact absurd he (by decide)
  | some e => exact ⟨e, rfl, c6_emitted_shape raceTriple e he⟩

/-- C9: hit is true exactly when a winner was extracted and its normalised
name, lower cased with whitespace runs collapsed and trimmed, equals the
normalised name of some shortlist entry; without a winner hit is false. -/
theorem c9_hit_characterisation (w : Option Winner) (sl : List Pick) :
    (computeHit w sl = true ↔
      ∃ wr, w = some wr ∧ ∃ p ∈ sl, normName p.name = normName wr.name) ∧
    computeHit none sl = false := by
  refine ⟨?_, rfl⟩
  cases w with
  | none => simp [computeHit]
  | some wr =>
    simp only [computeHit, List.any_eq_true, decide_eq_true_eq, Option.some.injEq]
    constructor
    · rintro ⟨p, hp, hn⟩
      exact ⟨wr, rfl, p, hp, hn⟩
    · rintro ⟨wr2, rfl, p, hp, hn⟩
      exact ⟨p, hp, hn⟩

/-- C2: on an empty input sequence the pool launches no worker and the
resolve call, reachable only from a completing worker, never happens: every
reachable state is the initial one, unresolved with nothing in flight. -/
theorem c2_empty_pool_never_resolves {α β : Type} (limit : ℕ) (f : α → β)
    (s : PoolState β) (h : PoolReachable ([] : List α) limit f s) :
    s.resolved = false ∧ s.inFlight = ∅ ∧ s.nextIdx = 0 := by
  have hinit : poolInit ([] : List α) limit f =
      { nextIdx := 0, inFlight := ∅, out := fun _ => none, resolved := false } := rfl
  induction h with
  | refl => rw [hinit]; exact ⟨rfl, rfl, rfl⟩
  | tail hab hbc ih =>
    obtain ⟨idx, hidx, _⟩ := hbc
    rw [ih.2.1] at hidx
    exact absurd hidx (Finset.not_mem_empty idx)

/-- C2 witness: the characterisation applied to the initial state of a
concrete empty pool. -/
theorem c2_witness :
    PoolReachable ([] : List ℕ) 2 (fun n => n + 1) (poolInit [] 2 (fun n => n + 1)) ∧
    (poolInit ([] : List ℕ) 2 (fun n => n + 1)).resolved = false :=
  ⟨Relation.ReflTransGen.refl,
    (c2_empty_pool_never_resolves 2 (fun n => n + 1) _ Relation.ReflTransGen.refl).1⟩

theorem launchAux_out {β : Type} (N limit fuel : ℕ) (s : PoolState β) :
    (launchAux N limit fuel s).out = s.out := by
  induction fuel generalizing s with
  | zero => rfl
  | succ n ih =>
    unfold launchAux
    split
    · rw [ih]
    · rfl

theorem launchAux_resolved {β : Type} (N limit fuel : ℕ) (s : PoolState β) :
    (launchAux N limit fuel s).resolved = s.resolved := by
  induction fuel generalizing s with
  | zero => rfl
  | succ n ih =>
    unfold launchAux
    split
    · rw [ih]
    · rfl

theorem launchAux_nextIdx_le {β : Type} (N limit fuel : ℕ) (s : PoolState β)
    (h : s.nextIdx ≤ N) : (launchAux N limit fuel s).nextIdx ≤ N := by
  induction fuel generalizing s with
  | zero => exact h
  | succ n ih =>
    unfold launchAux
    split
    · rename_i hg
      exact ih _ hg.2
    · exact h

theorem launchAux_subset {β : Type} (N limit fuel : ℕ) (s : PoolState β) :
    s.inFlight ⊆ (launchAux N limit fuel s).inFlight := by
  induction fuel generalizing s with
  | zero => exact subset_rfl
  | succ n ih =>
    unfold launchAux
    split
    · exact subset_trans (Finset.subset_insert _ _)
        (ih { s with nextIdx := s.nextIdx + 1, inFlight := insert s.nextIdx s.inFlight })
    · exact subset_rfl

theorem launchAux_flightLt {β : Type} (N limit fuel : ℕ) (s : PoolState β)
    (h : ∀ j ∈ s.inFlight, j < s.nextIdx) :
    ∀ j ∈ (launchAux N limit fuel s).inFlight, j < (launchAux N limit fuel s).nextIdx := by
  induction fuel generalizing s with
  | zero => exact h
  | succ n ih =>
    unfold launchAux
    split
    · apply ih
      intro j hj
      dsimp only at hj ⊢
      rcases Finset.mem_insert.mp hj with hj | hj
      · omega
      · exact Nat.lt_succ_of_lt (h j hj)
    · exact h

theorem launchAux_done_iff {β : Type} (N limit fuel : ℕ) (s : PoolState β) (j : ℕ) :
    (j < (launchAux N limit fuel s).nextIdx ∧ j ∉ (launchAux N limit fuel s).inFlight) ↔
      (j < s.nextIdx ∧ j ∉ s.inFlight) := by
  induction fuel generalizing s with
  | zero => exact Iff.rfl
  | succ n ih =>
    unfold launchAux
    split
    · rw [ih]
      dsimp only
      simp only [Finset.mem_insert, not_or]
      constructor
      · rintro ⟨h1, h2, h3⟩
        exact ⟨by omega, h3⟩
      · rintro ⟨h1, h2⟩
        exact ⟨by omega, by omega, h2⟩
    · exact Iff.rfl

theorem launchAux_guard {β : Type} (N limit fuel : ℕ) (s : PoolState β)
    (h : N - s.nextIdx ≤ fuel) :
    ¬ ((launchAux N limit fuel s).inFlight.card < limit ∧
        (launchAux N limit fuel s).nextIdx < N) := by
  induction fuel generalizing s with
  | zero =>
    unfold launchAux
    rintro ⟨_, hlt⟩
    omega
  | succ n ih =>
    unfold launchAux
    split
    · rename_i hg
      refine ih _ ?_
      dsimp only
      omega
    · rename_i hg
      exact hg

theorem launchAux_nonempty_entry {β : Type} (N limit fuel : ℕ) (s : PoolState β)
    (hg : s.inFlight.card < limit ∧ s.nextIdx < N) (hfuel : 0 < fuel) :
    (launchAux N limit fuel s).inFlight.Nonempty := by
  cases fuel with
  | zero => omega
  | succ n =>
    unfold launchAux
    rw [if_pos hg]
    exact ⟨s.nextIdx, launchAux_subset N limit n _ (Finset.mem_insert_self _ _)⟩

theorem launchAux_measure {β : Type} (N limit fuel : ℕ) (s : PoolState β)
    (h : ∀ j ∈ s.inFlight, j < s.nextIdx) :
    poolMeasure N (launchAux N limit fuel s) ≤ poolMeasure N s := by
  induction fuel generalizing s with
  | zero => exact le_refl _
  | succ n ih =>
    unfold launchAux
    split
    · rename_i hg
      have hnm : s.nextIdx ∉ s.inFlight := fun hmem => absurd (h _ hmem) (by omega)
      have hstep := ih { s with nextIdx := s.nextIdx + 1,
                                inFlight := insert s.nextIdx s.inFlight }
        (by
          intro j hj
          dsimp only at hj ⊢
          rcases Finset.mem_insert.mp hj with hj | hj
          · omega
          · exact Nat.lt_succ_of_lt (h j hj))
      refine le_trans hstep ?_
      unfold poolMeasure
      dsimp only
      rw [Finset.card_insert_of_not_mem hnm]
      omega
    · exact le_refl _

theorem complete_unfold {α β : Type} (items : List α) (limit : ℕ) (f : α → β)
    (s : PoolState β) (idx : ℕ) :
    complete items limit f s idx =
      if s.inFlight.erase idx = ∅ ∧ items.length ≤ s.nextIdx
      then { s with inFlight := s.inFlight.erase idx,
                    out := applyOut items f s.out idx, resolved := true }
      else launch items.length limit
        { s with inFlight := s.inFlight.erase idx, out := applyOut items f s.out idx } :=
  rfl

theorem applyOut_outEq {α β : Type} {items : List α} {limit : ℕ} {f : α → β}
    {s : PoolState β} {idx : ℕ} (hInv : PoolInv items limit f s) (hidx : idx ∈ s.inFlight)
    (j : ℕ) :
    applyOut items f s.out idx j =
      if j < s.nextIdx ∧ j ∉ s.inFlight.erase idx then (items.get? j).map f else none := by
  have hlt : idx < s.nextIdx := hInv.flightLt idx hidx
  unfold applyOut
  by_cases hji : j = idx
  · subst hji
    rw [if_pos rfl, if_pos ⟨hlt, Finset.not_mem_erase _ _⟩]
  · rw [if_neg hji, hInv.outEq j]
    by_cases hc : j < s.nextIdx ∧ j ∉ s.inFlight
    · rw [if_pos hc, if_pos ⟨hc.1, fun hmem => hc.2 (Finset.mem_of_mem_erase hmem)⟩]
    · rw [if_neg hc, if_neg (fun hc2 =>
        hc ⟨hc2.1, fun hmem => hc2.2 (Finset.mem_erase_of_ne_of_mem hji hmem)⟩)]

theorem poolInv_init {α β : Type} (items : List α) (limit : ℕ) (f : α → β) :
    PoolInv items limit f (poolInit items limit f) := by
  have hNpos : items = [] ∨ 0 < items.length := by
    cases items
    · exact Or.inl rfl
    · exact Or.inr (by simp)
  refine ⟨?_, ?_, ?_, ?_, ?_, ?_⟩
  · exact launchAux_nextIdx_le _ _ _ _ (Nat.zero_le _)
  · exact launchAux_flightLt _ _ _ _ (fun j hj => absurd hj (Finset.not_mem_empty j))
  · intro j
    unfold poolInit launch
    rw [launchAux_out, if_neg]
    intro hc
    have hdone := (launchAux_done_iff _ _ _ _ j).mp hc
    dsimp only at hdone
    omega
  · intro hres
    unfold poolInit launch at hres
    rw [launchAux_resolved] at hres
    exact absurd hres (by simp)
  · intro _
    unfold poolInit launch
    dsimp only
    have hg := launchAux_guard items.length limit (items.length - 0)
      ({ nextIdx := 0, inFlight := ∅, out := fun _ => none, resolved := false } : PoolState β)
      (by dsimp only; omega)
    have hle := launchAux_nextIdx_le items.length limit (items.length - 0)
      ({ nextIdx := 0, inFlight := ∅, out := fun _ => none, resolved := false } : PoolState β)
      (Nat.zero_le _)
    omega
  · intro _ hne hl
    unfold poolInit launch
    apply launchAux_nonempty_entry
    · dsimp only
      refine ⟨by simpa using hl, ?_⟩
      rcases hNpos with h | h
      · exact absurd h hne
      · exact h
    · dsimp only
      rcases hNpos with h | h
      · exact absurd h hne
      · omega

theorem poolInv_step {α β : Type} {items : List α} {limit : ℕ} {f : α → β}
    {s : PoolState β} {idx : ℕ} (hInv : PoolInv items limit f s) (hidx : idx ∈ s.inFlight) :
    PoolInv items limit f (complete items limit f s idx) := by
  have hlt : idx < s.nextIdx := hInv.flightLt idx hidx
  have hfl1 : ∀ j ∈ s.inFlight.erase idx, j < s.nextIdx :=
    fun j hj => hInv.flightLt j (Finset.mem_of_mem_erase hj)
  have hres : s.resolved = false := by
    cases hr : s.resolved
    · rfl
    · exact absurd hidx (by rw [(hInv.resolvedDrained hr).1]; exact Finset.not_mem_empty idx)
  rw [complete_unfold]
  split
  · rename_i hcond
    refine ⟨hInv.idxLe, ?_, ?_, ?_, ?_, ?_⟩
    · intro j hj
      dsimp only at hj ⊢
      exact hfl1 j hj
    · intro j
      dsimp only
      exact applyOut_outEq hInv hidx j
    · intro _
      exact ⟨hcond.1, le_antisymm hInv.idxLe hcond.2⟩
    · intro hres2
      dsimp only at hres2
      exact absurd hres2 (by simp)
    · intro hres2
      dsimp only at hres2
      exact absurd hres2 (by simp)
  · rename_i hcond
    refine ⟨?_, ?_, ?_, ?_, ?_, ?_⟩
    · exact launchAux_nextIdx_le _ _ _ _ hInv.idxLe
    · exact launchAux_flightLt _ _ _ _ (by
        intro j hj
        dsimp only at hj ⊢
        exact hfl1 j hj)
    · intro j
      unfold launch
      rw [launchAux_out]
      have h2 := applyOut_outEq hInv hidx j
      dsimp only
      rw [h2]
      exact (if_congr (Iff.symm (launchAux_done_iff _ _ _ _ j)) rfl rfl)
    · intro hres2
      unfold launch at hres2
      rw [launchAux_resolved] at hres2
      dsimp only at hres2
      rw [hres] at hres2
      exact absurd hres2 (by simp)
    · intro _
      unfold launch
      dsimp only
      have hg := launchAux_guard items.length limit (items.length - s.nextIdx)
        ({ s with inFlight := s.inFlight.erase idx,
                  out := applyOut items f s.out idx } : PoolState β) (le_refl _)
      have hle := launchAux_nextIdx_le items.length limit (items.length - s.nextIdx)
        ({ s with inFlight := s.inFlight.erase idx,
                  out := applyOut items f s.out idx } : PoolState β) hInv.idxLe
      omega
    · intro _ hne hl
      by_cases hne1 : (s.inFlight.erase idx).Nonempty
      · exact Finset.Nonempty.mono (launchAux_subset _ _ _ _) hne1
      · have hemp : s.inFlight.erase idx = ∅ := Finset.not_nonempty_iff_eq_empty.mp hne1
        have hNlt : s.nextIdx < items.length := by
          rcases Nat.lt_or_ge s.nextIdx items.length with h | h
          · exact h
          · exact absurd ⟨hemp, h⟩ hcond
        apply launchAux_nonempty_entry
        · dsimp only
          rw [hemp]
          exact ⟨by simpa using hl, hNlt⟩
        · dsimp only
          omega

theorem poolInv_reachable {α β : Type} {items : List α} {limit : ℕ} {f : α → β}
    {s : PoolState β} (h : PoolReachable items limit f s) : PoolInv items limit f s := by
  induction h with
  | refl => exact poolInv_init items limit f
  | tail hab hbc ih =>
    obtain ⟨idx, hidx, rfl⟩ := hbc
    exact poolInv_step ih hidx

theorem pool_resolved_out {α β : Type} {items : List α} {limit : ℕ} {f : α → β}
    {s : PoolState β} (h : PoolReachable items limit f s) (hres : s.resolved = true) :
    ∀ j, s.out j = (items.get? j).map f := by
  have hInv := poolInv_reachable h
  obtain ⟨hemp, hN⟩ := hInv.resolvedDrained hres
  intro j
  rw [hInv.outEq j]
  by_cases hj : j < s.nextIdx
  · rw [if_pos ⟨hj, by rw [hemp]; exact Finset.not_mem_empty j⟩]
  · rw [if_neg (fun hc => hj hc.1)]
    rw [List.get?_eq_none.mpr (by omega)]
    rfl

theorem complete_measure_lt {α β : Type} {items : List α} {limit : ℕ} {f : α → β}
    {s : PoolState β} {idx : ℕ} (hInv : PoolInv items limit f s) (hidx : idx ∈ s.inFlight) :
    poolMeasure items.length (complete items limit f s idx) <
      poolMeasure items.length s := by
  have hcard : (s.inFlight.erase idx).card < s.inFlight.card :=
    Finset.card_erase_lt_of_mem hidx
  rw [complete_unfold]
  split
  · unfold poolMeasure
    dsimp only
    omega
  · unfold launch
    refine lt_of_le_of_lt (launchAux_measure _ _ _ _ ?_) ?_
    · intro j hj
      dsimp only at hj ⊢
      exact hInv.flightLt j (Finset.mem_of_mem_erase hj)
    · unfold poolMeasure
      dsimp only
      omega

theorem pool_exists_resolved_aux {α β : Type} (items : List α) (limit : ℕ) (f : α → β)
    (n : ℕ) :
    ∀ s, PoolReachable items limit f s → poolMeasure items.length s ≤ n →
      items ≠ [] → 0 < limit →
      ∃ t, PoolReachable items limit f t ∧ t.resolved = true := by
  induction n with
  | zero =>
    intro s hr hm hne hl
    cases hres : s.resolved
    · have hInv := poolInv_reachable hr
      obtain ⟨idx, hidx⟩ := hInv.liveFlight hres hne hl
      have hpos : 0 < s.inFlight.card := Finset.card_pos.mpr ⟨idx, hidx⟩
      unfold poolMeasure at hm
      omega
    · exact ⟨s, hr, hres⟩
  | succ n ih =>
    intro s hr hm hne hl
    cases hres : s.resolved
    · have hInv := poolInv_reachable hr
      obtain ⟨idx, hidx⟩ := hInv.liveFlight hres hne hl
      have hstep : PoolStep items limit f s (complete items limit f s idx) := ⟨idx, hidx, rfl⟩
      have hr2 : PoolReachable items limit f (complete items limit f s idx) :=
        Relation.ReflTransGen.tail hr hstep
      have hdec := complete_measure_lt hInv hidx
      exact ih _ hr2 (by omega) hne hl
    · exact ⟨s, hr, hres⟩

/-- C8: for a non empty input sequence, a positive concurrency limit and a
non rejecting worker, the pool reaches a resolved state under some
completion order, and in every resolved state it can reach, under any
completion order whatsoever, slot j holds the worker result for input j,
with slots beyond the input length empty. -/
theorem c8_pool_ordered_results {α β : Type} (items : List α) (limit : ℕ) (f : α → β)
    (hne : items ≠ []) (hl : 0 < limit) :
    (∃ s, PoolReachable items limit f s ∧ s.resolved = true) ∧
    (∀ s, PoolReachable items limit f s → s.resolved = true →
      ∀ j, s.out j = (items.get? j).map f) := by
  constructor
  · exact pool_exists_resolved_aux items limit f
      (poolMeasure items.length (poolInit items limit f)) _
      Relation.ReflTransGen.refl (le_refl _) hne hl
  · intro s hr hres
    exact pool_resolved_out hr hres

/-- C8 witness: a concrete one item pool with limit one resolves, and in
the resolved state slot zero holds the worker result while slot one is
empty. -/
theorem c8_witness :
    ∃ s, PoolReachable [5] 1 (fun n => n + 1) s ∧ s.resolved = true ∧
      s.out 0 = some 6 ∧ s.out 1 = none := by
  obtain ⟨s, hs, hres⟩ :=
    (c8_pool_ordered_results [5] 1 (fun n => n + 1) (by decide) (by decide)).1
  have hout := (c8_pool_ordered_results [5] 1 (fun n => n + 1) (by decide) (by decide)).2
    s hs hres
  refine ⟨s, hs, hres, ?_, ?_⟩
  · rw [hout 0]
    rfl
  · rw [hout 1]
    rfl

theorem splitOnCh_no_sep {sep : Char} :
    ∀ {l : List Char}, sep ∉ l → splitOnCh sep l = [l] := by
  intro l
  induction l with
  | nil => intro _; rfl
  | cons c rest ih =>
    intro h
    unfold splitOnCh
    rw [ih (fun hm => h (List.mem_cons_of_mem c hm))]
    rw [if_neg (fun he => h (by rw [← he]; exact List.mem_cons_self c rest))]

theorem splitOnCh_cons_ne (c : Char) {sep : Char} {l hd : List Char} {tl : List (List Char)}
    (hne : ¬ c = sep) (hl : splitOnCh sep l = hd :: tl) :
    splitOnCh sep (c :: l) = (c :: hd) :: tl := by
  unfold splitOnCh
  rw [hl, if_neg hne]

theorem splitOnCh_sep_cons (sep : Char) (l : List Char) :
    splitOnCh sep (sep :: l) = [] :: splitOnCh sep l := by
  conv_lhs => unfold splitOnCh
  dsimp only
  rw [if_pos rfl]

theorem date_arg_ne_today (v : String) : ("--date=" ++ v) ≠ "--today" := by
  intro h
  have hd := congrArg String.data h
  rw [String.data_append] at hd
  simp at hd

theorem date_arg_ne_yesterday (v : String) : ("--date=" ++ v) ≠ "--yesterday" := by
  intro h
  have hd := congrArg String.data h
  rw [String.data_append] at hd
  simp at hd

theorem date_arg_starts (v : String) : strStarts ("--date=" ++ v) "--date=" = true := by
  unfold strStarts
  rw [String.data_append]
  rfl

theorem date_arg_val (v : String) (h : ('=' : Char) ∉ v.data) :
    String.mk ((splitOnCh '=' ("--date=" ++ v).data).getD 1 []) = v := by
  rw [String.data_append]
  show String.mk
    ((splitOnCh '=' ('-' :: '-' :: 'd' :: 'a' :: 't' :: 'e' :: '=' :: v.data)).getD 1 []) = v
  have h1 := splitOnCh_sep_cons '=' v.data
  rw [splitOnCh_no_sep h] at h1
  have h2 := splitOnCh_cons_ne 'e' (by decide) h1
  have h3 := splitOnCh_cons_ne 't' (by decide) h2
  have h4 := splitOnCh_cons_ne 'a' (by decide) h3
  have h5 := splitOnCh_cons_ne 'd' (by decide) h4
  have h6 := splitOnCh_cons_ne '-' (by decide) h5
  have h7 := splitOnCh_cons_ne '-' (by decide) h6
  rw [h7]
  rfl

theorem contains_today_false (v : String) :
    (["--date=" ++ v].contains "--today") = false := by
  have hb : ("--today" == "--date=" ++ v) = false :=
    beq_eq_false_iff_ne.mpr (fun h => date_arg_ne_today v h.symm)
  simp only [List.contains, List.elem_cons, List.elem_nil, hb]

theorem contains_yesterday_false (v : String) :
    (["--date=" ++ v].contains "--yesterday") = false := by
  have hb : ("--yesterday" == "--date=" ++ v) = false :=
    beq_eq_false_iff_ne.mpr (fun h => date_arg_ne_yesterday v h.symm)
  simp only [List.contains, List.elem_cons, List.elem_nil, hb]

theorem c5_part_a (now : ℕ) (v : String) (hparse : parseDateFlexible v = none)
    (hnoeq : ('=' : Char) ∉ v.data) :
    getTargetDateFromArgs now ["--date=" ++ v] = Except.error (dateErrMsg v) := by
  unfold getTargetDateFromArgs
  rw [contains_today_false, contains_yesterday_false]
  simp only [Bool.false_eq_true, if_false]
  have hfind : List.find? (fun a => strStarts a "--date=") ["--date=" ++ v] =
      some ("--date=" ++ v) := by
    simp [List.find?, date_arg_starts]
  rw [hfind]
  simp only []
  rw [date_arg_val v hnoeq, hparse]

theorem c5_part_b (now : ℕ) (h : 86400000 ≤ now) :
    getTargetDateFromArgs now [] = Except.ok (prevCalendarDayOfMs now) := by
  have hq : now / 86400000 = (now - 86400000) / 86400000 + 1 := by
    conv_lhs => rw [show now = (now - 86400000) + 86400000 from by omega]
    exact Nat.add_div_right _ (by norm_num)
  have hstart : getTargetDateFromArgs now [] = Except.ok (toYMDofMs (now - 86400000)) := rfl
  rw [hstart]
  unfold toYMDofMs prevCalendarDayOfMs
  dsimp only
  have harg : (((now - 86400000) / 86400000 : ℕ) : ℤ) = ((now / 86400000 : ℕ) : ℤ) - 1 := by
    rw [hq]
    push_cast
    ring
  rw [harg]

/-- C5 counterexample: the explicitly supplied date 2025-02-30 is not a
real calendar date, yet the program does not reject it: the Date rollover
silently turns it into 2025-03-02 and that different date is returned. -/
theorem c5_counterexample :
    getTargetDateFromArgs 0 ["--date=2025-02-30"] = Except.ok "2025-03-02" ∧
    "2025-03-02" ≠ "2025-02-30" :=
  ⟨by rfl, by decide⟩

/-- C5 (amended): an explicit date value that matches neither accepted
format is rejected with a descriptive error naming the value, and with no
date argument the program targets the previous calendar day relative to
process start; however a well formatted date with out of range components
is not rejected but silently normalised by calendar rollover to a
different date. -/
theorem c5_date_validation :
    (∀ (now : ℕ) (v : String), parseDateFlexible v = none → ('=' : Char) ∉ v.data →
      getTargetDateFromArgs now ["--date=" ++ v] = Except.error (dateErrMsg v)) ∧
    (∀ now : ℕ, 86400000 ≤ now →
      getTargetDateFromArgs now [] = Except.ok (prevCalendarDayOfMs now)) :=
  ⟨c5_part_a, c5_part_b⟩

/-- C5 witness: the rejection evaluated on the unparseable value nope and
the default evaluated at the second day after the epoch. -/
theorem c5_witness :
    (parseDateFlexible "nope" = none ∧ ('=' : Char) ∉ "nope".data ∧
      86400000 ≤ 172800000) ∧
    getTargetDateFromArgs 172800000 ["--date=" ++ "nope"] = Except.error (dateErrMsg "nope") ∧
    getTargetDateFromArgs 172800000 [] = Except.ok "1970-01-02" := by
  refine ⟨⟨by decide, by decide, by decide⟩,
    c5_date_validation.1 172800000 "nope" (by decide) (by decide), ?_⟩
  rw [c5_date_validation.2 172800000 (by decide)]
  rfl
